import Mathlib

/-!
Shallow embedding of the SPARQL-to-graph conversion utility of
`test_visualization_fix.py` (with the HTTP smoke checks modelled as pure
functions of an explicit environment), and proofs about it.

Python strings are embedded as Lean `String`s; the Python string
operations used by the source (`.lower()`, `in`, `.startswith`,
`.replace`, `.split(c)[-1]`, slicing, `len`) are given explicit
executable counterparts on `List Char` below.
-/

/-- Embeds Python `s.lower()` (the source only applies it to ASCII URIs):
lowercase every character. -/
def pyLower (s : String) : String :=
  String.mk (s.toList.map Char.toLower)

/-- Helper for substring containment: does `n` occur as a contiguous
run inside the second list? -/
def containsSubAux (n : List Char) : List Char → Bool
  | [] => n.isEmpty
  | c :: rest => n.isPrefixOf (c :: rest) || containsSubAux n rest

/-- Embeds Python `needle in hay` for strings. -/
def pyContains (hay needle : String) : Bool :=
  containsSubAux needle.toList hay.toList

/-- Embeds Python `c in s` for a single character `c`. -/
def pyHasChar (c : Char) (s : String) : Bool :=
  s.toList.any (fun a => a == c)

/-- Embeds Python `s.startswith(p)`. -/
def pyStartsWith (s p : String) : Bool :=
  p.toList.isPrefixOf s.toList

/-- Fuelled worker for `pyReplace`: replaces non-overlapping occurrences
of `pat` left to right, as Python `str.replace` does. The fuel only
forces structural termination; `pyReplace` supplies enough of it. -/
def pyReplaceAux (pat repl : List Char) : Nat → List Char → List Char
  | _, [] => []
  | 0, s => s
  | fuel + 1, c :: rest =>
    if pat.isPrefixOf (c :: rest) then
      repl ++ pyReplaceAux pat repl fuel (rest.drop (pat.length - 1))
    else
      c :: pyReplaceAux pat repl fuel rest

/-- Embeds Python `s.replace(pat, repl)` for a non-empty `pat`
(the source only replaces the non-empty patterns `"ex:"` and
`"resource"`). -/
def pyReplace (s pat repl : String) : String :=
  String.mk (pyReplaceAux pat.toList repl.toList s.toList.length s.toList)

/-- Embeds Python `s.split(c)[-1]` for a one-character separator: the
suffix after the last occurrence of `c` (the whole string when `c` is
absent, since `split` then returns the singleton `[s]`). -/
def pyAfterLast (c : Char) (s : String) : String :=
  String.mk ((s.toList.reverse.takeWhile (fun a => a != c)).reverse)

/-- One SPARQL result row: `binding.get('s', {}).get('value')` etc. —
each field is absent (`none`) or a string value. -/
structure Binding where
  s : Option String
  p : Option String
  o : Option String
deriving DecidableEq

/-- A graph node as built by `convert_sparql_to_graph`
(`test_visualization_fix.py` lines 63-78). -/
structure Node where
  id : String
  name : String
  type : String
  group : Nat
deriving DecidableEq

/-- A graph link as built by `convert_sparql_to_graph`
(`test_visualization_fix.py` lines 81-86). -/
structure Link where
  source : String
  target : String
  type : String
  label : String
deriving DecidableEq

/-- The converter's result `{'nodes': ..., 'links': ...}`. -/
structure Graph where
  nodes : List Node
  links : List Link
deriving DecidableEq

/-- Embeds `get_node_name` (`test_visualization_fix.py` lines 93-101). -/
def get_node_name (uri : String) : String :=
  if pyStartsWith uri "ex:" then
    pyReplace (pyReplace uri "ex:" "") "resource" "Resource "
  else if pyHasChar '#' uri then
    pyAfterLast '#' uri
  else if pyHasChar '/' uri then
    pyAfterLast '/' uri
  else if uri.toList.length > 30 then
    String.mk (uri.toList.take 30) ++ "..."
  else uri

/-- Embeds `get_node_type` (`test_visualization_fix.py` lines 103-114). -/
def get_node_type (uri : String) : String :=
  let uri_lower := pyLower uri
  if pyContains uri_lower "product" then "product"
  else if pyContains uri_lower "location" then "location"
  else if pyContains uri_lower "event" then "event"
  else if pyContains uri_lower "business" then "business"
  else "resource"

/-- Embeds `get_node_group` (`test_visualization_fix.py` lines 116-125):
`groups.get(node_type, 0)` over the literal dict. -/
def get_node_group (uri : String) : Nat :=
  let node_type := get_node_type uri
  (List.lookup node_type
    [("product", 1), ("location", 2), ("event", 3), ("business", 4)]).getD 0

/-- Embeds `get_edge_type` (`test_visualization_fix.py` lines 127-134). -/
def get_edge_type (predicate : String) : String :=
  let predicate_lower := pyLower predicate
  if pyContains predicate_lower "type" then "type"
  else if pyContains predicate_lower "has" then "has"
  else "relationship"

/-- Embeds `get_edge_label` (`test_visualization_fix.py` lines 136-140). -/
def get_edge_label (predicate : String) : String :=
  if pyHasChar '#' predicate then
    pyAfterLast '#' predicate
  else if predicate.toList.length > 20 then
    String.mk (predicate.toList.take 20) ++ "..."
  else predicate

/-- The node record inserted for a URI (`test_visualization_fix.py`
lines 64-69 and 73-78 — subject and object use the same shape). -/
def mkNode (uri : String) : Node :=
  { id := uri
    name := get_node_name uri
    type := get_node_type uri
    group := get_node_group uri }

/-- The link record appended for one qualifying binding
(`test_visualization_fix.py` lines 81-86). -/
def mkLink (subject predicate object : String) : Link :=
  { source := subject
    target := object
    type := get_edge_type predicate
    label := get_edge_label predicate }

/-- Embeds Python `uri in nodes` (dict-key membership) on the ordered
association list that models the insertion-ordered dict `nodes`. -/
def hasKey (k : String) (nodes : List (String × Node)) : Bool :=
  nodes.any (fun q => q.1 == k)

/-- The loop of `convert_sparql_to_graph` (`test_visualization_fix.py`
lines 56-86), with the dict `nodes` as an insertion-ordered association
list and `links` as the accumulated list. -/
def convertAux : List Binding → List (String × Node) → List Link →
    List (String × Node) × List Link
  | [], nodes, links => (nodes, links)
  | b :: rest, nodes, links =>
    match b.s, b.p, b.o with
    | some subject, some predicate, some object =>
      if subject ≠ "" ∧ predicate ≠ "" ∧ object ≠ "" then
        let nodes1 :=
          if hasKey subject nodes then nodes
          else nodes ++ [(subject, mkNode subject)]
        let nodes2 :=
          if hasKey object nodes1 then nodes1
          else nodes1 ++ [(object, mkNode object)]
        convertAux rest nodes2 (links ++ [mkLink subject predicate object])
      else
        convertAux rest nodes links
    | _, _, _ => convertAux rest nodes links

/-- Embeds `convert_sparql_to_graph` (`test_visualization_fix.py`
lines 51-91): `list(nodes.values())` is the insertion-ordered value
list of the dict. -/
def convert_sparql_to_graph (bindings : List Binding) : Graph :=
  let r := convertAux bindings [] []
  { nodes := r.1.map Prod.snd, links := r.2 }

/-- A binding passes the `if subject and predicate and object` guard
(`test_visualization_fix.py` line 61): all three fields present and
non-empty (Python truthiness of an optional string). -/
def qualifies (b : Binding) : Bool :=
  (match b.s with | none => false | some v => !(v == "")) &&
  (match b.p with | none => false | some v => !(v == "")) &&
  (match b.o with | none => false | some v => !(v == ""))

/-- The URI occurs as the subject or the object of some qualifying
binding of the list. -/
def appearsIn (uri : String) (bs : List Binding) : Bool :=
  bs.any (fun b => qualifies b && (b.s == some uri || b.o == some uri))

/-! HTTP environment model for the smoke checks. The scripts' network
calls are embedded as a pure environment: each endpoint's behaviour is
an `Except` value, `Except.error` standing for a raised exception. -/

/-- Outcome of the two HTTP calls the script makes: the GET for the
static file (status code or exception) and the POST of the SPARQL query
(status code plus the parsed `results.bindings` on success, or an
exception). The POSTed query is fixed, so one field models every call
to the endpoint. -/
structure HttpEnv where
  staticResp : Except String Nat
  sparqlResp : Except String (Nat × List Binding)

/-- Embeds `test_static_files` (`test_visualization_fix.py` lines
34-49): `True` exactly on a 200 response, `False` on any other status
and on an exception. -/
def test_static_files (env : HttpEnv) : Bool :=
  match env.staticResp with
  | Except.ok code => code == 200
  | Except.error _ => false

/-- Embeds `test_sparql_api` (`test_visualization_fix.py` lines 10-32):
the parsed response data on a 200 response, `None` otherwise. The
returned JSON object is modelled by its `results.bindings` list; the
object is non-empty (it carries `status`, `results`, ...), so its
Python truthiness is `isSome` of this result. -/
def test_sparql_api (env : HttpEnv) : Option (List Binding) :=
  match env.sparqlResp with
  | Except.ok (code, bindings) => if code == 200 then some bindings else none
  | Except.error _ => none

/-- Embeds `test_graph_conversion` (`test_visualization_fix.py` lines
142-171): `False` when `test_sparql_api` yields no data, otherwise it
converts the bindings (which cannot fail) and returns `True`. -/
def test_graph_conversion (env : HttpEnv) : Bool :=
  match test_sparql_api env with
  | none => false
  | some _ => true

/-- Embeds `main` (`test_visualization_fix.py` lines 173-195): runs the
three checks in sequence and returns `all([static_ok, sparql_ok,
conversion_ok])`, where `sparql_ok` contributes by Python truthiness.
Named `script_main` because a Lean `def main` is reserved for
executables. -/
def script_main (env : HttpEnv) : Bool :=
  let static_ok := test_static_files env
  let sparql_ok := (test_sparql_api env).isSome
  let conversion_ok := test_graph_conversion env
  static_ok && sparql_ok && conversion_ok

/-! Bridging lemmas: the executable Python-operation embeddings versus
their mathematical characterisations. -/

theorem containsSubAux_iff (n : List Char) :
    ∀ h : List Char, containsSubAux n h = true ↔ n <:+: h := by
  intro h
  induction h with
  | nil => simp [containsSubAux, List.infix_nil, List.isEmpty_iff]
  | cons c rest ih =>
      simp [containsSubAux, List.isPrefixOf_iff_prefix, ih, List.infix_cons_iff]

theorem pyContains_iff (hay needle : String) :
    pyContains hay needle = true ↔ needle.toList <:+: hay.toList := by
  simp [pyContains, containsSubAux_iff]

theorem pyHasChar_iff (c : Char) (s : String) :
    pyHasChar c s = true ↔ c ∈ s.toList := by
  simp [pyHasChar, List.any_eq_true]

theorem pyStartsWith_iff (s p : String) :
    pyStartsWith s p = true ↔ p.toList <+: s.toList := by
  simp [pyStartsWith, List.isPrefixOf_iff_prefix]

theorem toList_append (a b : String) : (a ++ b).toList = a.toList ++ b.toList := by
  cases a; cases b; rfl

theorem toList_mk (l : List Char) : (String.mk l).toList = l := rfl

theorem mk_toList (s : String) : String.mk s.toList = s := rfl

/-- The first element surviving `dropWhile` fails the predicate. -/
theorem dropWhile_cons_false {α : Type} {p : α → Bool} :
    ∀ {l : List α} {a : α} {t : List α}, l.dropWhile p = a :: t → p a = false := by
  intro l
  induction l with
  | nil => intro a t hat; simp at hat
  | cons c cs ih =>
      intro a t hat
      rw [List.dropWhile_cons] at hat
      by_cases hc : p c
      · rw [if_pos hc] at hat
        exact ih hat
      · rw [if_neg hc] at hat
        cases hat
        simpa using hc

/-- When `c` does not occur in `s`, Python `s.split(c)[-1]` is `s`. -/
theorem pyAfterLast_of_not_mem (c : Char) (s : String) (h : c ∉ s.toList) :
    pyAfterLast c s = s := by
  have hall : ∀ a ∈ s.toList.reverse, (a != c) = true := by
    intro a ha
    rw [List.mem_reverse] at ha
    simp only [bne_iff_ne, ne_eq]
    exact fun hac => h (hac ▸ ha)
  have htw : s.toList.reverse.takeWhile (fun a => a != c) = s.toList.reverse :=
    List.takeWhile_eq_self_iff.mpr hall
  show String.mk ((s.toList.reverse.takeWhile (fun a => a != c)).reverse) = s
  rw [htw, List.reverse_reverse]
  exact mk_toList s

/-- When `c` occurs in `s`, Python `s.split(c)[-1]` is the suffix after
the LAST occurrence of `c`: the original splits as
`pre ++ c :: result`, and the result is free of `c`. -/
theorem pyAfterLast_spec (c : Char) (s : String) (h : c ∈ s.toList) :
    (∃ pre, s.toList = pre ++ c :: (pyAfterLast c s).toList) ∧
      c ∉ (pyAfterLast c s).toList := by
  have hmem : c ∈ s.toList.reverse := List.mem_reverse.mpr h
  have hne : s.toList.reverse.dropWhile (fun a => a != c) ≠ [] := by
    intro hnil
    have hcc := List.dropWhile_eq_nil_iff.mp hnil c hmem
    simp at hcc
  obtain ⟨a, t, hat⟩ := List.exists_cons_of_ne_nil hne
  have hhead : (fun x => x != c) a = false :=
    dropWhile_cons_false (p := fun x => x != c) hat
  have hac : a = c := by simpa using hhead
  rw [hac] at hat
  have hdecomp :
      s.toList.reverse.takeWhile (fun a => a != c) ++ c :: t = s.toList.reverse := by
    rw [← hat]
    exact List.takeWhile_append_dropWhile _ _
  have hafter :
      (pyAfterLast c s).toList =
        (s.toList.reverse.takeWhile (fun a => a != c)).reverse := rfl
  constructor
  · refine ⟨t.reverse, ?_⟩
    rw [hafter]
    conv_lhs => rw [← List.reverse_reverse s.toList, ← hdecomp]
    simp
  · rw [hafter]
    simp only [List.mem_reverse]
    intro hmm
    have hpp := List.mem_takeWhile_imp hmm
    simp at hpp

theorem hasKey_iff (k : String) (nodes : List (String × Node)) :
    hasKey k nodes = true ↔ k ∈ nodes.map Prod.fst := by
  simp [hasKey, List.any_eq_true]

/-- The link a qualifying binding contributes (its three fields are
`some`, so `getD` only strips the `some`). -/
def linkOf (b : Binding) : Link :=
  mkLink (b.s.getD "") (b.p.getD "") (b.o.getD "")

theorem qualifies_some_iff (a b c : String) :
    qualifies ⟨some a, some b, some c⟩ = true ↔ (a ≠ "" ∧ b ≠ "" ∧ c ≠ "") := by
  simp [qualifies, and_assoc]

/-- Inserting a key into the node dict keeps the stored-record shape. -/
theorem entries_insert (k : String) (nodes : List (String × Node))
    (h : ∀ q ∈ nodes, q.2 = mkNode q.1) :
    ∀ q ∈ (if hasKey k nodes then nodes else nodes ++ [(k, mkNode k)]),
      q.2 = mkNode q.1 := by
  intro q hq
  by_cases hk : hasKey k nodes
  · rw [if_pos hk] at hq
    exact h q hq
  · rw [if_neg hk] at hq
    rcases List.mem_append.mp hq with hq | hq
    · exact h q hq
    · rw [List.mem_singleton.mp hq]

/-- Key membership after the conditional insert of `k`. -/
theorem keys_insert_mem (k u : String) (nodes : List (String × Node)) :
    (u ∈ (if hasKey k nodes then nodes else nodes ++ [(k, mkNode k)]).map Prod.fst) ↔
      u ∈ nodes.map Prod.fst ∨ u = k := by
  by_cases hk : hasKey k nodes
  · rw [if_pos hk]
    constructor
    · exact Or.inl
    · rintro (h | rfl)
      · exact h
      · exact (hasKey_iff _ _).mp hk
  · rw [if_neg hk]
    simp [List.map_append]

/-- The conditional insert keeps the key list duplicate-free. -/
theorem keys_insert_nodup (k : String) (nodes : List (String × Node))
    (h : (nodes.map Prod.fst).Nodup) :
    ((if hasKey k nodes then nodes else nodes ++ [(k, mkNode k)]).map Prod.fst).Nodup := by
  by_cases hk : hasKey k nodes
  · rw [if_pos hk]
    exact h
  · rw [if_neg hk, List.map_append]
    refine h.append ?_ ?_
    · simp
    · rw [show ([(k, mkNode k)].map Prod.fst) = [k] from rfl, List.disjoint_singleton]
      exact fun hmem => hk ((hasKey_iff _ _).mpr hmem)

/-- The accumulated link list after the loop: the input links followed
by one link per qualifying binding, in order. -/
theorem convertAux_links (bs : List Binding) :
    ∀ nodes links,
      (convertAux bs nodes links).2 = links ++ (bs.filter qualifies).map linkOf := by
  induction bs with
  | nil =>
      intro nodes links
      simp [convertAux]
  | cons b rest ih =>
      intro nodes links
      obtain ⟨os, op, oo⟩ := b
      cases os with
      | none =>
          rw [show convertAux (⟨none, op, oo⟩ :: rest) nodes links =
            convertAux rest nodes links from rfl, ih, List.filter_cons]
          simp [qualifies]
      | some vs =>
        cases op with
        | none =>
            rw [show convertAux (⟨some vs, none, oo⟩ :: rest) nodes links =
              convertAux rest nodes links from rfl, ih, List.filter_cons]
            simp [qualifies]
        | some vp =>
          cases oo with
          | none =>
              rw [show convertAux (⟨some vs, some vp, none⟩ :: rest) nodes links =
                convertAux rest nodes links from rfl, ih, List.filter_cons]
              simp [qualifies]
          | some vo =>
              by_cases h : vs ≠ "" ∧ vp ≠ "" ∧ vo ≠ ""
              · have hq : qualifies ⟨some vs, some vp, some vo⟩ = true :=
                  (qualifies_some_iff _ _ _).mpr h
                simp only [convertAux, if_pos h]
                rw [ih, List.filter_cons, hq]
                simp [linkOf, mkLink]
              · have hq : qualifies ⟨some vs, some vp, some vo⟩ = false := by
                  rw [Bool.eq_false_iff]
                  exact fun ht => h ((qualifies_some_iff _ _ _).mp ht)
                simp only [convertAux, if_neg h]
                rw [ih, List.filter_cons, hq]
                simp

/-- Every record the loop ever stores is the one computed from its key. -/
theorem convertAux_entries (bs : List Binding) :
    ∀ nodes links, (∀ q ∈ nodes, q.2 = mkNode q.1) →
      ∀ q ∈ (convertAux bs nodes links).1, q.2 = mkNode q.1 := by
  induction bs with
  | nil =>
      intro nodes links h
      simpa [convertAux] using h
  | cons b rest ih =>
      intro nodes links h
      obtain ⟨os, op, oo⟩ := b
      cases os with
      | none =>
          rw [show convertAux (⟨none, op, oo⟩ :: rest) nodes links =
            convertAux rest nodes links from rfl]
          exact ih _ _ h
      | some vs =>
        cases op with
        | none =>
            rw [show convertAux (⟨some vs, none, oo⟩ :: rest) nodes links =
              convertAux rest nodes links from rfl]
            exact ih _ _ h
        | some vp =>
          cases oo with
          | none =>
              rw [show convertAux (⟨some vs, some vp, none⟩ :: rest) nodes links =
                convertAux rest nodes links from rfl]
              exact ih _ _ h
          | some vo =>
              by_cases hc : vs ≠ "" ∧ vp ≠ "" ∧ vo ≠ ""
              · simp only [convertAux, if_pos hc]
                exact ih _ _ (entries_insert vo _ (entries_insert vs _ h))
              · simp only [convertAux, if_neg hc]
                exact ih _ _ h

/-- Key membership after the whole loop: the keys are the starting keys
plus every URI that appears as subject or object of a qualifying
binding. -/
theorem convertAux_keys_mem (bs : List Binding) :
    ∀ nodes links u,
      u ∈ (convertAux bs nodes links).1.map Prod.fst ↔
        u ∈ nodes.map Prod.fst ∨ appearsIn u bs = true := by
  induction bs with
  | nil =>
      intro nodes links u
      simp [convertAux, appearsIn]
  | cons b rest ih =>
      intro nodes links u
      obtain ⟨os, op, oo⟩ := b
      cases os with
      | none =>
          rw [show convertAux (⟨none, op, oo⟩ :: rest) nodes links =
            convertAux rest nodes links from rfl, ih]
          simp [appearsIn, qualifies]
      | some vs =>
        cases op with
        | none =>
            rw [show convertAux (⟨some vs, none, oo⟩ :: rest) nodes links =
              convertAux rest nodes links from rfl, ih]
            simp [appearsIn, qualifies]
        | some vp =>
          cases oo with
          | none =>
              rw [show convertAux (⟨some vs, some vp, none⟩ :: rest) nodes links =
                convertAux rest nodes links from rfl, ih]
              simp [appearsIn, qualifies]
          | some vo =>
              by_cases hc : vs ≠ "" ∧ vp ≠ "" ∧ vo ≠ ""
              · have hq : qualifies ⟨some vs, some vp, some vo⟩ = true :=
                  (qualifies_some_iff _ _ _).mpr hc
                simp only [convertAux, if_pos hc]
                rw [ih, keys_insert_mem, keys_insert_mem]
                rw [show appearsIn u (⟨some vs, some vp, some vo⟩ :: rest) =
                  ((qualifies ⟨some vs, some vp, some vo⟩ &&
                    ((some vs == some u) || (some vo == some u))) ||
                    appearsIn u rest) from rfl, hq]
                simp only [Bool.true_and, Bool.or_eq_true, beq_iff_eq,
                  Option.some.injEq]
                constructor
                · rintro (((h | rfl) | rfl) | h)
                  · exact Or.inl h
                  · exact Or.inr (Or.inl (Or.inl rfl))
                  · exact Or.inr (Or.inl (Or.inr rfl))
                  · exact Or.inr (Or.inr h)
                · rintro (h | ((rfl | rfl) | h))
                  · exact Or.inl (Or.inl (Or.inl h))
                  · exact Or.inl (Or.inl (Or.inr rfl))
                  · exact Or.inl (Or.inr rfl)
                  · exact Or.inr h
              · have hq : qualifies ⟨some vs, some vp, some vo⟩ = false := by
                  rw [Bool.eq_false_iff]
                  exact fun ht => hc ((qualifies_some_iff _ _ _).mp ht)
                simp only [convertAux, if_neg hc]
                rw [ih]
                simp [appearsIn, hq]

/-- The loop keeps the key list duplicate-free. -/
theorem convertAux_keys_nodup (bs : List Binding) :
    ∀ nodes links, (nodes.map Prod.fst).Nodup →
      ((convertAux bs nodes links).1.map Prod.fst).Nodup := by
  induction bs with
  | nil =>
      intro nodes links h
      simpa [convertAux] using h
  | cons b rest ih =>
      intro nodes links h
      obtain ⟨os, op, oo⟩ := b
      cases os with
      | none =>
          rw [show convertAux (⟨none, op, oo⟩ :: rest) nodes links =
            convertAux rest nodes links from rfl]
          exact ih _ _ h
      | some vs =>
        cases op with
        | none =>
            rw [show convertAux (⟨some vs, none, oo⟩ :: rest) nodes links =
              convertAux rest nodes links from rfl]
            exact ih _ _ h
        | some vp =>
          cases oo with
          | none =>
              rw [show convertAux (⟨some vs, some vp, none⟩ :: rest) nodes links =
                convertAux rest nodes links from rfl]
              exact ih _ _ h
          | some vo =>
              by_cases hc : vs ≠ "" ∧ vp ≠ "" ∧ vo ≠ ""
              · simp only [convertAux, if_pos hc]
                exact ih _ _ (keys_insert_nodup vo _ (keys_insert_nodup vs _ h))
              · simp only [convertAux, if_neg hc]
                exact ih _ _ h

/-- Dropping the non-qualifying bindings first does not change the loop
result. -/
theorem convertAux_filter (bs : List Binding) :
    ∀ nodes links,
      convertAux (bs.filter qualifies) nodes links = convertAux bs nodes links := by
  induction bs with
  | nil =>
      intro nodes links
      simp
  | cons b rest ih =>
      intro nodes links
      obtain ⟨os, op, oo⟩ := b
      cases os with
      | none =>
          rw [List.filter_cons, show qualifies ⟨none, op, oo⟩ = false from rfl]
          rw [show convertAux (⟨none, op, oo⟩ :: rest) nodes links =
            convertAux rest nodes links from rfl]
          simpa using ih nodes links
      | some vs =>
        cases op with
        | none =>
            rw [List.filter_cons,
              show qualifies ⟨some vs, none, oo⟩ = false by simp [qualifies]]
            rw [show convertAux (⟨some vs, none, oo⟩ :: rest) nodes links =
              convertAux rest nodes links from rfl]
            simpa using ih nodes links
        | some vp =>
          cases oo with
          | none =>
              rw [List.filter_cons,
                show qualifies ⟨some vs, some vp, none⟩ = false by simp [qualifies]]
              rw [show convertAux (⟨some vs, some vp, none⟩ :: rest) nodes links =
                convertAux rest nodes links from rfl]
              simpa using ih nodes links
          | some vo =>
              by_cases hc : vs ≠ "" ∧ vp ≠ "" ∧ vo ≠ ""
              · have hq : qualifies ⟨some vs, some vp, some vo⟩ = true :=
                  (qualifies_some_iff _ _ _).mpr hc
                rw [List.filter_cons, hq]
                simp only [convertAux, if_pos hc, ite_true]
                exact ih _ _
              · have hq : qualifies ⟨some vs, some vp, some vo⟩ = false := by
                  rw [Bool.eq_false_iff]
                  exact fun ht => hc ((qualifies_some_iff _ _ _).mp ht)
                rw [List.filter_cons, hq]
                simp only [convertAux, if_neg hc, ite_false]
                exact ih _ _

/-- Every link accumulated by the loop points at stored node keys,
provided the links already accumulated do. -/
theorem convertAux_links_closed (bs : List Binding) :
    ∀ nodes links,
      (∀ l ∈ links,
        l.source ∈ nodes.map Prod.fst ∧ l.target ∈ nodes.map Prod.fst) →
      ∀ l ∈ (convertAux bs nodes links).2,
        l.source ∈ (convertAux bs nodes links).1.map Prod.fst ∧
          l.target ∈ (convertAux bs nodes links).1.map Prod.fst := by
  induction bs with
  | nil =>
      intro nodes links h
      simpa [convertAux] using h
  | cons b rest ih =>
      intro nodes links h
      obtain ⟨os, op, oo⟩ := b
      cases os with
      | none =>
          rw [show convertAux (⟨none, op, oo⟩ :: rest) nodes links =
            convertAux rest nodes links from rfl]
          exact ih _ _ h
      | some vs =>
        cases op with
        | none =>
            rw [show convertAux (⟨some vs, none, oo⟩ :: rest) nodes links =
              convertAux rest nodes links from rfl]
            exact ih _ _ h
        | some vp =>
          cases oo with
          | none =>
              rw [show convertAux (⟨some vs, some vp, none⟩ :: rest) nodes links =
                convertAux rest nodes links from rfl]
              exact ih _ _ h
          | some vo =>
              by_cases hc : vs ≠ "" ∧ vp ≠ "" ∧ vo ≠ ""
              · simp only [convertAux, if_pos hc]
                apply ih
                intro l hl
                rcases List.mem_append.mp hl with hl | hl
                · obtain ⟨h1, h2⟩ := h l hl
                  refine ⟨?_, ?_⟩
                  · exact (keys_insert_mem vo _ _).mpr
                      (Or.inl ((keys_insert_mem vs _ _).mpr (Or.inl h1)))
                  · exact (keys_insert_mem vo _ _).mpr
                      (Or.inl ((keys_insert_mem vs _ _).mpr (Or.inl h2)))
                · rw [List.mem_singleton.mp hl]
                  refine ⟨?_, ?_⟩
                  · exact (keys_insert_mem vo _ _).mpr
                      (Or.inl ((keys_insert_mem vs _ _).mpr (Or.inr rfl)))
                  · exact (keys_insert_mem vo _ _).mpr (Or.inr rfl)
              · simp only [convertAux, if_neg hc]
                exact ih _ _ h

/-- The value list's ids are exactly the stored keys (each stored record
is the one computed from its key). -/
theorem nodes_id_eq_keys (bs : List Binding) :
    (convert_sparql_to_graph bs).nodes.map Node.id =
      (convertAux bs [] []).1.map Prod.fst := by
  have hent := convertAux_entries bs [] [] (by intro q hq; simp at hq)
  show ((convertAux bs [] []).1.map Prod.snd).map Node.id =
    (convertAux bs [] []).1.map Prod.fst
  rw [List.map_map]
  apply List.map_congr_left
  intro q hq
  show q.2.id = q.1
  rw [hent q hq]
  rfl

/-- C1 counterexample: on the binding list
`[{s:"ex:resource1", p:"ex:hasType", o:"ex:Product"}]` the single
emitted link's category is `type`, not `has` as the claim states — the
lowercased predicate `"ex:hastype"` contains `"type"`, which
`get_edge_type` tests first. -/
theorem edge_type_of_hasType_not_has :
    (convert_sparql_to_graph
      [⟨some "ex:resource1", some "ex:hasType", some "ex:Product"⟩]).links.map Link.type
        = ["type"] ∧
    ¬ ((convert_sparql_to_graph
      [⟨some "ex:resource1", some "ex:hasType", some "ex:Product"⟩]).links.map Link.type
        = ["has"]) := by decide

/-- C1 (amended): for the input binding list
`[{s:"ex:resource1", p:"ex:hasType", o:"ex:Product"}]`,
`convert_sparql_to_graph` produces a node set keyed exactly by
`"ex:resource1"` and `"ex:Product"` and exactly one link whose category
is `type` (because the lowercased predicate contains `"type"`, checked
before `"has"`) and whose label is the untruncated `"ex:hasType"`. -/
theorem example_binding_graph :
    ((convert_sparql_to_graph
      [⟨some "ex:resource1", some "ex:hasType", some "ex:Product"⟩]).nodes.map Node.id
        = ["ex:resource1", "ex:Product"]) ∧
    ((convert_sparql_to_graph
      [⟨some "ex:resource1", some "ex:hasType", some "ex:Product"⟩]).links
        = [{ source := "ex:resource1", target := "ex:Product",
             type := "type", label := "ex:hasType" }]) := by decide

/-- C2: the emitted links are exactly one per qualifying binding (all
three fields present and non-empty), in order and without
deduplication, so the link count equals the qualifying-binding count. -/
theorem links_count_eq_qualifying (bs : List Binding) :
    (convert_sparql_to_graph bs).links = (bs.filter qualifies).map linkOf ∧
      (convert_sparql_to_graph bs).links.length = (bs.filter qualifies).length := by
  have h := convertAux_links bs [] []
  have h2 : (convert_sparql_to_graph bs).links = (bs.filter qualifies).map linkOf := by
    simpa [convert_sparql_to_graph] using h
  exact ⟨h2, by rw [h2, List.length_map]⟩

/-- C3: each URI occurring as subject or object of a qualifying binding
yields exactly one node entry (count 1 in the id list, count 0 for URIs
that never so occur), and every stored node is exactly the record
computed from its URI — insertion happens on first sight only and a
later sight never overwrites it. -/
theorem nodes_unique_per_uri (bs : List Binding) (uri : String) :
    ((convert_sparql_to_graph bs).nodes.map Node.id).count uri =
      (if appearsIn uri bs then 1 else 0) ∧
    ∀ n ∈ (convert_sparql_to_graph bs).nodes, n = mkNode n.id := by
  constructor
  · rw [nodes_id_eq_keys]
    have hnd := convertAux_keys_nodup bs [] [] (by simp)
    by_cases happ : appearsIn uri bs = true
    · rw [if_pos happ]
      refine List.count_eq_one_of_mem hnd ?_
      exact (convertAux_keys_mem bs [] [] uri).mpr (Or.inr happ)
    · rw [if_neg happ, List.count_eq_zero]
      intro hmm
      rcases (convertAux_keys_mem bs [] [] uri).mp hmm with h | h
      · simp at h
      · exact happ h
  · intro n hn
    simp only [convert_sparql_to_graph] at hn
    obtain ⟨q, hq, rfl⟩ := List.mem_map.mp hn
    have hent := convertAux_entries bs [] [] (by intro q hq; simp at hq) q hq
    rw [hent]
    rfl

/-- C4 counterexample: on `"ex:resource1"` the code does not just strip
the `"ex:"` marker (which would give `"resource1"`): it also replaces
`"resource"` by `"Resource "`, yielding `"Resource 1"`. -/
theorem node_name_ex_marker_counterexample :
    get_node_name "ex:resource1" = "Resource 1" ∧
      ("Resource 1" : String) ≠ "resource1" := by decide

/-- C4 (amended): for every URI, `get_node_name` returns: if the URI
starts with the literal marker `"ex:"`, the URI with every occurrence
of `"ex:"` removed and then every occurrence of `"resource"` replaced
by `"Resource "`; otherwise the substring after the last `'#'` if the
URI contains `'#'`; otherwise the substring after the last `'/'` if it
contains `'/'`; otherwise the URI itself, truncated to 30 characters
followed by an ellipsis when its length exceeds 30. -/
theorem node_name_branches (uri : String) :
    ("ex:".toList <+: uri.toList →
      get_node_name uri = pyReplace (pyReplace uri "ex:" "") "resource" "Resource ") ∧
    (¬ "ex:".toList <+: uri.toList → '#' ∈ uri.toList →
      (∃ pre, uri.toList = pre ++ '#' :: (get_node_name uri).toList) ∧
        '#' ∉ (get_node_name uri).toList) ∧
    (¬ "ex:".toList <+: uri.toList → '#' ∉ uri.toList → '/' ∈ uri.toList →
      (∃ pre, uri.toList = pre ++ '/' :: (get_node_name uri).toList) ∧
        '/' ∉ (get_node_name uri).toList) ∧
    (¬ "ex:".toList <+: uri.toList → '#' ∉ uri.toList → '/' ∉ uri.toList →
      (uri.toList.length ≤ 30 → get_node_name uri = uri) ∧
      (uri.toList.length > 30 →
        (get_node_name uri).toList = uri.toList.take 30 ++ "...".toList)) := by
  have hsw : ¬ "ex:".toList <+: uri.toList → pyStartsWith uri "ex:" = false :=
    fun h => Bool.eq_false_iff.mpr (fun ht => h ((pyStartsWith_iff _ _).mp ht))
  have hhc : ∀ c : Char, c ∉ uri.toList → pyHasChar c uri = false :=
    fun c h => Bool.eq_false_iff.mpr (fun ht => h ((pyHasChar_iff _ _).mp ht))
  refine ⟨?_, ?_, ?_, ?_⟩
  · intro h
    have hs : pyStartsWith uri "ex:" = true := (pyStartsWith_iff _ _).mpr h
    simp [get_node_name, hs]
  · intro h hmem
    have hc : pyHasChar '#' uri = true := (pyHasChar_iff _ _).mpr hmem
    rw [show get_node_name uri = pyAfterLast '#' uri by
      simp [get_node_name, hsw h, hc]]
    exact pyAfterLast_spec '#' uri hmem
  · intro h h1 hmem
    have hc2 : pyHasChar '/' uri = true := (pyHasChar_iff _ _).mpr hmem
    rw [show get_node_name uri = pyAfterLast '/' uri by
      simp [get_node_name, hsw h, hhc '#' h1, hc2]]
    exact pyAfterLast_spec '/' uri hmem
  · intro h h1 h2
    constructor
    · intro hlen
      unfold get_node_name
      rw [hsw h, hhc '#' h1, hhc '/' h2]
      rw [if_neg (by simp), if_neg (by simp), if_neg (by simp),
        if_neg (by omega)]
    · intro hlen
      unfold get_node_name
      rw [hsw h, hhc '#' h1, hhc '/' h2]
      rw [if_neg (by simp), if_neg (by simp), if_neg (by simp),
        if_pos hlen, toList_append, toList_mk]

/-- C4 witness: the first branch of `node_name_branches` applied at the
concrete URI `"ex:resource1"`. -/
theorem node_name_branches_witness :
    get_node_name "ex:resource1" =
      pyReplace (pyReplace "ex:resource1" "ex:" "") "resource" "Resource " :=
  (node_name_branches "ex:resource1").1 (by decide)

/-- C5: `get_node_type` tests the lowercased URI for the substrings
`"product"`, `"location"`, `"event"`, `"business"` in this priority
order, defaulting to `"resource"`, and `get_node_group` maps those
categories to 1, 2, 3, 4 and 0 respectively. -/
theorem node_type_priority_and_group (uri : String) :
    get_node_type uri =
      (if "product".toList <:+: (pyLower uri).toList then "product"
       else if "location".toList <:+: (pyLower uri).toList then "location"
       else if "event".toList <:+: (pyLower uri).toList then "event"
       else if "business".toList <:+: (pyLower uri).toList then "business"
       else "resource") ∧
    get_node_group uri =
      (if get_node_type uri = "product" then 1
       else if get_node_type uri = "location" then 2
       else if get_node_type uri = "event" then 3
       else if get_node_type uri = "business" then 4
       else 0) := by
  constructor
  · exact if_congr (pyContains_iff _ _) rfl
      (if_congr (pyContains_iff _ _) rfl
        (if_congr (pyContains_iff _ _) rfl
          (if_congr (pyContains_iff _ _) rfl rfl)))
  · have h5 : get_node_type uri = "product" ∨ get_node_type uri = "location" ∨
        get_node_type uri = "event" ∨ get_node_type uri = "business" ∨
        get_node_type uri = "resource" := by
      simp only [get_node_type]
      split_ifs <;> simp
    rcases h5 with h | h | h | h | h <;>
      rw [show get_node_group uri =
        (List.lookup (get_node_type uri)
          [("product", 1), ("location", 2), ("event", 3), ("business", 4)]).getD 0
        from rfl, h] <;> decide

/-- C6: `get_edge_type` returns `type` when the lowercased predicate
contains `"type"`, else `has` when it contains `"has"`, else
`relationship`. -/
theorem edge_type_priority (p : String) :
    get_edge_type p =
      (if "type".toList <:+: (pyLower p).toList then "type"
       else if "has".toList <:+: (pyLower p).toList then "has"
       else "relationship") :=
  if_congr (pyContains_iff _ _) rfl (if_congr (pyContains_iff _ _) rfl rfl)

/-- C7: `get_edge_label` returns the substring after the last `'#'`
when the predicate contains one (the predicate splits as
`pre ++ '#' :: label` with a `'#'`-free label); otherwise the predicate
itself, truncated to 20 characters plus an ellipsis when longer. -/
theorem edge_label_spec (p : String) :
    ('#' ∈ p.toList →
      (∃ pre, p.toList = pre ++ '#' :: (get_edge_label p).toList) ∧
        '#' ∉ (get_edge_label p).toList) ∧
    ('#' ∉ p.toList → p.toList.length ≤ 20 → get_edge_label p = p) ∧
    ('#' ∉ p.toList → p.toList.length > 20 →
      (get_edge_label p).toList = p.toList.take 20 ++ "...".toList) := by
  refine ⟨?_, ?_, ?_⟩
  · intro hmem
    have hc : pyHasChar '#' p = true := (pyHasChar_iff _ _).mpr hmem
    rw [show get_edge_label p = pyAfterLast '#' p by simp [get_edge_label, hc]]
    exact pyAfterLast_spec '#' p hmem
  · intro hmem hlen
    have hc : pyHasChar '#' p = false :=
      Bool.eq_false_iff.mpr (fun ht => hmem ((pyHasChar_iff _ _).mp ht))
    unfold get_edge_label
    rw [hc, if_neg (by simp), if_neg (by omega)]
  · intro hmem hlen
    have hc : pyHasChar '#' p = false :=
      Bool.eq_false_iff.mpr (fun ht => hmem ((pyHasChar_iff _ _).mp ht))
    unfold get_edge_label
    rw [hc, if_neg (by simp), if_pos hlen, toList_append, toList_mk]

/-- C7 witness: the `'#'` branch of `edge_label_spec` at the concrete
predicate `"ex:a#hasPart"`. -/
theorem edge_label_spec_witness :
    (∃ pre, "ex:a#hasPart".toList =
      pre ++ '#' :: (get_edge_label "ex:a#hasPart").toList) ∧
      '#' ∉ (get_edge_label "ex:a#hasPart").toList :=
  (edge_label_spec "ex:a#hasPart").1 (by decide)

/-- C8: a binding with a missing or empty subject, predicate or object
contributes nothing — the whole output graph equals the one computed
from the qualifying bindings alone. -/
theorem skip_non_qualifying (bs : List Binding) :
    convert_sparql_to_graph bs = convert_sparql_to_graph (bs.filter qualifies) := by
  simp [convert_sparql_to_graph, convertAux_filter]

/-- C9: whenever the static-file GET yields any status other than 200
(or raises), `test_static_files` returns `False`, and `main` still
combines all three check results into its final boolean. -/
theorem static_failure_isolated (env : HttpEnv)
    (h : ∀ code, env.staticResp = Except.ok code → code ≠ 200) :
    test_static_files env = false ∧
      script_main env =
        (test_static_files env && (test_sparql_api env).isSome &&
          test_graph_conversion env) := by
  refine ⟨?_, rfl⟩
  cases henv : env.staticResp with
  | ok code =>
      have hne := h code henv
      simp [test_static_files, henv, hne]
  | error e =>
      simp [test_static_files, henv]

/-- C9 witness: `static_failure_isolated` at a concrete environment
whose static GET returns 404 while the SPARQL POST succeeds. -/
theorem static_failure_isolated_witness :
    test_static_files ⟨Except.ok 404, Except.ok (200, [])⟩ = false ∧
      script_main ⟨Except.ok 404, Except.ok (200, [])⟩ =
        (test_static_files ⟨Except.ok 404, Except.ok (200, [])⟩ &&
          (test_sparql_api ⟨Except.ok 404, Except.ok (200, [])⟩).isSome &&
          test_graph_conversion ⟨Except.ok 404, Except.ok (200, [])⟩) :=
  static_failure_isolated _ (by intro code hc; injection hc with h2; omega)

/-- C10: no dangling references — the source and target of every
emitted link are ids of nodes present in the emitted node list. -/
theorem links_closed_in_nodes (bs : List Binding) (l : Link)
    (hl : l ∈ (convert_sparql_to_graph bs).links) :
    l.source ∈ (convert_sparql_to_graph bs).nodes.map Node.id ∧
      l.target ∈ (convert_sparql_to_graph bs).nodes.map Node.id := by
  rw [nodes_id_eq_keys]
  have hcl := convertAux_links_closed bs [] [] (by intro l hl; simp at hl)
  exact hcl l hl

/-- C10 witness: `links_closed_in_nodes` at a concrete one-binding
list and its emitted link. -/
theorem links_closed_in_nodes_witness :
    (mkLink "ex:resource1" "ex:hasType" "ex:Product").source ∈
      (convert_sparql_to_graph
        [⟨some "ex:resource1", some "ex:hasType", some "ex:Product"⟩]).nodes.map
          Node.id ∧
    (mkLink "ex:resource1" "ex:hasType" "ex:Product").target ∈
      (convert_sparql_to_graph
        [⟨some "ex:resource1", some "ex:hasType", some "ex:Product"⟩]).nodes.map
          Node.id :=
  links_closed_in_nodes _ _ (by decide)
